import Mathlib

/-!
# snarkVM core: Merkle trie paths, the inner (transaction validity) circuit,
# and the Marlin proof structure — a shallow embedding with proofs

This development embeds, in Lean, the behaviour of three pieces of the
snarkVM repository:

* `MerkleTriePath::verify` (`algorithms/src/merkle_trie/merkle_path.rs`),
* `InnerCircuit::generate_constraints` (`dpc/src/circuits/inner_circuit.rs`),
  modelled as the satisfaction predicate the generated constraint system
  imposes on the circuit's public/private variables,
* `Proof::new` / `Proof::batch_sizes`
  (`algorithms/src/snark/marlin/data_structures/proof.rs`).

Rust control flow that can `panic!` (an `assert_eq!`, a `Vec::insert` or
slice index out of bounds, an `unwrap`) is rendered with an explicit
`panicked` outcome, distinct from a returned `Err` (`error`) and from a
normal return (`ok`).  Cryptographic primitives (CRH, PRF, commitment,
encryption, signature schemes) and byte-serialisation of opaque scheme
values are external collaborators of the analysed code; they are
parameters of the model (`Primitives`), kept total.
-/

namespace SnarkVM

/-- Outcome of running a Rust function returning `Result<α, E>`:
it can panic, return `Err(_)`, or return `Ok(v)`. -/
inductive ROutcome (α : Type) where
  | panicked : ROutcome α
  | error : ROutcome α
  | ok : α → ROutcome α
deriving Repr, DecidableEq

/-! ## Merkle trie authentication path (`merkle_path.rs`)

Digests (`[u8; 32]`) are opaque comparable values, modelled as `Nat`.
Keys are byte strings (`List Nat`), and the generic leaf-value type `T`
is modelled as `Nat`.  The node hash `calculate_root` is code of the
repository that is not under `src/`; it is modelled from the spec as a
total function parameter `H : key → Option value → children digests →
digest` ("recompute the level's digest as `CRH(parents[i].key,
parents[i].value, node_digests)`"), the CRH being an external
primitive. -/

/-- `MerkleTriePath { path, parents, traversal }`: sibling-digest groups
from leaf to root, the `(key, Option value)` stored at each parent node,
and the insertion position of the current subtree digest per level. -/
structure MerkleTriePath where
  path : List (List Nat)
  parents : List (List Nat × Option Nat)
  traversal : List Nat
deriving Repr, DecidableEq

/-- `Vec::insert(index, x)`: shifts elements right; panics (`none`) when
`index > len`. -/
def insertAt (l : List Nat) (i : Nat) (x : Nat) : Option (List Nat) :=
  if i ≤ l.length then some (l.take i ++ x :: l.drop i) else none

/-- Zip three lists, truncating to the shortest (the Rust loop walks
`traversal.zip_eq(path)` and indexes `parents[i]`; the preceding
`assert_eq!`s guarantee equal lengths whenever the loop runs). -/
def zip3 : List α → List β → List γ → List (α × β × γ)
  | a :: as_, b :: bs, c :: cs => (a, b, c) :: zip3 as_ bs cs
  | _, _, _ => []

/-- The loop body of `MerkleTriePath::verify`: per level, insert the
current digest among the siblings at the traversal index (panicking —
`none` — when the index exceeds the sibling count) and rehash with the
parent's key and value. -/
def verifyLevels (H : List Nat → Option Nat → List Nat → Nat) :
    List (Nat × List Nat × (List Nat × Option Nat)) → Nat → Option Nat
  | [], curr => some curr
  | (index, siblings, parent) :: rest, curr =>
    match insertAt siblings index curr with
    | some nodeHashes => verifyLevels H rest (H parent.1 parent.2 nodeHashes)
    | none => none

/-- The digest obtained by folding the leaf digest `H key (some value) []`
up through all levels of the path (`none` when some traversal index is
out of bounds for its level). -/
def computedRootOpt (H : List Nat → Option Nat → List Nat → Nat)
    (p : MerkleTriePath) (key : List Nat) (value : Nat) : Option Nat :=
  verifyLevels H (zip3 p.traversal p.path p.parents) (H key (some value) [])

/-- `MerkleTriePath::verify(root_hash, key, value)`.  The two
`assert_eq!`s panic on mismatched vector lengths; an empty path returns
`Ok(false)`; otherwise the leaf digest is folded level by level
(`Vec::insert` panicking on an out-of-bounds traversal index) and the
final digest is compared with `root_hash`. -/
def MerkleTriePath.verify (H : List Nat → Option Nat → List Nat → Nat)
    (p : MerkleTriePath) (rootHash : Nat) (key : List Nat) (value : Nat) :
    ROutcome Bool :=
  if p.path.length = p.traversal.length ∧ p.parents.length = p.traversal.length then
    if p.path.isEmpty then
      ROutcome.ok false
    else
      match computedRootOpt H p key value with
      | some currHash => ROutcome.ok (currHash == rootHash)
      | none => ROutcome.panicked
  else
    ROutcome.panicked

/-! ### Index bookkeeping lemmas for `zip3` -/

theorem zip3_getElem? (xs : List α) (ys : List β) (zs : List γ) (i : Nat) :
    (zip3 xs ys zs)[i]? =
      xs[i]?.bind fun x => ys[i]?.bind fun y => zs[i]?.map fun z => (x, y, z) := by
  induction xs generalizing ys zs i with
  | nil => cases ys <;> cases zs <;> simp [zip3]
  | cons x xs ih =>
    cases ys with
    | nil => simp [zip3]
    | cons y ys =>
      cases zs with
      | nil => simp [zip3]
      | cons z zs =>
        cases i with
        | zero => simp [zip3]
        | succ j => simpa [zip3] using ih ys zs j

theorem mem_of_getElem? {l : List α} {i : Nat} {x : α} (h : l[i]? = some x) :
    x ∈ l := by
  induction l generalizing i with
  | nil => simp at h
  | cons y ys ih =>
    cases i with
    | zero => simp_all
    | succ j =>
      simp only [List.getElem?_cons_succ] at h
      exact List.mem_cons_of_mem _ (ih h)

theorem getElem?_eq_some_getD {l : List α} {i : Nat} (d : α) (h : i < l.length) :
    l[i]? = some (l.getD i d) := by
  induction l generalizing i with
  | nil => simp at h
  | cons y ys ih =>
    cases i with
    | zero => simp [List.getD]
    | succ j =>
      simp only [List.length_cons, Nat.succ_lt_succ_iff] at h
      simpa [List.getD] using ih h

/-- If every level's traversal index is within bounds for that level's
sibling count, the fold succeeds. -/
theorem verifyLevels_isSome (H : List Nat → Option Nat → List Nat → Nat)
    (levels : List (Nat × List Nat × (List Nat × Option Nat)))
    (hb : ∀ l ∈ levels, l.1 ≤ l.2.1.length) (curr : Nat) :
    ∃ d, verifyLevels H levels curr = some d := by
  induction levels generalizing curr with
  | nil => exact ⟨curr, rfl⟩
  | cons hd tl ih =>
    have hhd : hd.1 ≤ hd.2.1.length := hb hd (List.mem_cons_self _ _)
    obtain ⟨idx, sibs, parent⟩ := hd
    simp only [verifyLevels]
    rw [insertAt, if_pos hhd]
    exact ih (fun l hl => hb l (List.mem_cons_of_mem _ hl)) _

/-- If some level's traversal index exceeds that level's sibling count,
the fold panics (`none`). -/
theorem verifyLevels_eq_none (H : List Nat → Option Nat → List Nat → Nat)
    (levels : List (Nat × List Nat × (List Nat × Option Nat)))
    (hb : ∃ l ∈ levels, l.2.1.length < l.1) (curr : Nat) :
    verifyLevels H levels curr = none := by
  induction levels generalizing curr with
  | nil => simp at hb
  | cons hd tl ih =>
    obtain ⟨l, hl, hlt⟩ := hb
    obtain ⟨idx, sibs, parent⟩ := hd
    simp only [verifyLevels]
    rcases List.mem_cons.mp hl with heq | hmem
    · subst heq
      simp only at hlt
      rw [insertAt, if_neg (by omega)]
    · cases hins : insertAt sibs idx curr with
      | none => rfl
      | some nodes => exact ih ⟨l, hmem, hlt⟩ _

theorem getD_of_getElem? {l : List α} {i : Nat} {x : α} (d : α)
    (h : l[i]? = some x) : l.getD i d = x ∧ i < l.length := by
  induction l generalizing i with
  | nil => simp at h
  | cons y ys ih =>
    cases i with
    | zero => simp_all [List.getD]
    | succ j =>
      simp only [List.getElem?_cons_succ] at h
      obtain ⟨h1, h2⟩ := ih h
      exact ⟨by simpa [List.getD] using h1, by simpa using h2⟩

/-- With equal lengths and every traversal index in bounds, each element of
the zipped level list satisfies the bound needed by `verifyLevels`. -/
theorem zip3_levels_bound (p : MerkleTriePath)
    (hb : ∀ i, i < p.traversal.length →
      p.traversal.getD i 0 ≤ (p.path.getD i []).length) :
    ∀ l ∈ zip3 p.traversal p.path p.parents, l.1 ≤ l.2.1.length := by
  intro l hl
  obtain ⟨i, hi⟩ := List.mem_iff_getElem?.mp hl
  rw [zip3_getElem?] at hi
  cases ht : p.traversal[i]? with
  | none => simp [ht] at hi
  | some t =>
    cases hpa : p.path[i]? with
    | none => simp [ht, hpa] at hi
    | some sibs =>
      cases hpar : p.parents[i]? with
      | none => simp [ht, hpa, hpar] at hi
      | some par =>
        obtain ⟨lt, lsibs, lpar⟩ := l
        simp [ht, hpa, hpar] at hi
        obtain ⟨hg1, hg2, hg3⟩ := hi
        obtain ⟨hgt, hit⟩ := getD_of_getElem? 0 ht
        obtain ⟨hgp, _⟩ := getD_of_getElem? [] hpa
        have hble := hb i hit
        rw [hgt, hgp] at hble
        show lt ≤ lsibs.length
        subst hg1
        subst hg2
        exact hble

/-- **C1**: for a `MerkleTriePath` with a non-empty `path`, equal-length
`path`/`parents`/`traversal` vectors, and every traversal index in bounds
for its level, `verify(root_hash, key, value)` returns `Ok(true)` exactly
when folding the leaf digest `H(key, Some value, [])` upward level by
level — inserting the current digest at position `traversal[i]` among the
level's sibling digests and rehashing with `parents[i]`'s key and value
(`computedRootOpt`) — yields the supplied root hash, and returns
`Ok(false)` otherwise. -/
theorem merkle_verify_ok_iff (H : List Nat → Option Nat → List Nat → Nat)
    (p : MerkleTriePath) (rootHash : Nat) (key : List Nat) (value : Nat)
    (hne : p.path ≠ [])
    (h1 : p.path.length = p.traversal.length)
    (h2 : p.parents.length = p.traversal.length)
    (hb : ∀ i, i < p.traversal.length →
      p.traversal.getD i 0 ≤ (p.path.getD i []).length) :
    (p.verify H rootHash key value = ROutcome.ok true ↔
      computedRootOpt H p key value = some rootHash) ∧
    (p.verify H rootHash key value = ROutcome.ok false ↔
      computedRootOpt H p key value ≠ some rootHash) := by
  obtain ⟨d, hd⟩ := verifyLevels_isSome H _ (zip3_levels_bound p hb)
      (H key (some value) [])
  have hco : computedRootOpt H p key value = some d := hd
  rw [MerkleTriePath.verify, if_pos ⟨h1, h2⟩,
    if_neg (by simpa [List.isEmpty_iff] using hne), hco]
  constructor
  · constructor
    · intro h
      have : (d == rootHash) = true := by
        simpa using h
      rw [beq_iff_eq] at this
      rw [this]
    · intro h
      rw [Option.some_inj] at h
      simp [h]
  · constructor
    · intro h
      have : (d == rootHash) = false := by
        simpa using h
      intro hc
      rw [Option.some_inj] at hc
      simp [hc] at this
    · intro h
      have hne' : d ≠ rootHash := fun hc => h (by rw [hc])
      simp [hne']

/-- Witness for `merkle_verify_ok_iff` at a concrete one-level path. -/
theorem merkle_verify_ok_iff_witness :
    MerkleTriePath.verify (fun _ _ _ => 0) ⟨[[5]], [([1], some 2)], [0]⟩ 0 [] 7 =
      ROutcome.ok true :=
  ((merkle_verify_ok_iff (fun _ _ _ => 0) ⟨[[5]], [([1], some 2)], [0]⟩ 0 [] 7
    (by decide) (by decide) (by decide) (by decide)).1).mpr (by decide)

/-- **C6**: whenever some traversal index exceeds its level's sibling
count, `verify` does not return `Ok(true)` (the out-of-bounds
`Vec::insert` panics rather than appending). -/
theorem merkle_verify_oob_rejects (H : List Nat → Option Nat → List Nat → Nat)
    (p : MerkleTriePath) (rootHash : Nat) (key : List Nat) (value : Nat)
    (i : Nat) (hi : i < p.traversal.length) (hip : i < p.path.length)
    (hoob : (p.path.getD i []).length < p.traversal.getD i 0) :
    p.verify H rootHash key value ≠ ROutcome.ok true := by
  rw [MerkleTriePath.verify]
  by_cases hlen : p.path.length = p.traversal.length ∧
      p.parents.length = p.traversal.length
  · rw [if_pos hlen]
    have hnem : ¬ p.path.isEmpty := by
      cases hp : p.path with
      | nil => rw [hp] at hip; simp at hip
      | cons a l => simp
    rw [if_neg hnem]
    have hipar : i < p.parents.length := by omega
    have hmem : (p.traversal.getD i 0, p.path.getD i [],
        p.parents.getD i ([], none)) ∈ zip3 p.traversal p.path p.parents := by
      apply mem_of_getElem? (i := i)
      rw [zip3_getElem?, getElem?_eq_some_getD 0 hi, getElem?_eq_some_getD [] hip,
        getElem?_eq_some_getD ([], none) hipar]
      rfl
    have hnone : computedRootOpt H p key value = none :=
      verifyLevels_eq_none H _ ⟨_, hmem, hoob⟩ _
    rw [hnone]
    simp
  · rw [if_neg hlen]
    simp

/-- Witness for `merkle_verify_oob_rejects`: a path whose single level has
no siblings but traversal index `1`. -/
theorem merkle_verify_oob_rejects_witness :
    MerkleTriePath.verify (fun _ _ _ => 0) ⟨[[]], [([], none)], [1]⟩ 0 [] 0 ≠
      ROutcome.ok true :=
  merkle_verify_oob_rejects (fun _ _ _ => 0) ⟨[[]], [([], none)], [1]⟩ 0 [] 0 0
    (by decide) (by decide) (by decide)

/-- **C7 (counterexample)**: on mismatched vector lengths (`path` has one
level, `traversal` and `parents` are empty) `verify` panics — the
`assert_eq!` aborts — rather than returning a `Result` error value, so
"fails with an error ... when the path, parents and traversal vectors do
not all have the same length" is false as stated. -/
theorem merkle_verify_mismatch_panics_cex :
    MerkleTriePath.verify (fun _ _ _ => 0) ⟨[[]], [], []⟩ 0 [] 0 =
        ROutcome.panicked ∧
      (ROutcome.panicked : ROutcome Bool) ≠ ROutcome.error := by
  constructor
  · decide
  · decide

/-- **C7 (amended)**: `verify` *panics* (assertion failure) whenever the
`path`, `parents` and `traversal` vectors do not all have the same
length; when the lengths match and every traversal index is in bounds it
returns an `Ok` boolean (a `Result` error could arise only from the
underlying CRH primitive, which is modelled total here). -/
theorem merkle_verify_error_behaviour (H : List Nat → Option Nat → List Nat → Nat)
    (p : MerkleTriePath) (rootHash : Nat) (key : List Nat) (value : Nat) :
    ((p.path.length ≠ p.traversal.length ∨ p.parents.length ≠ p.traversal.length) →
      p.verify H rootHash key value = ROutcome.panicked) ∧
    (p.path.length = p.traversal.length → p.parents.length = p.traversal.length →
      (∀ i, i < p.traversal.length →
        p.traversal.getD i 0 ≤ (p.path.getD i []).length) →
      ∃ b, p.verify H rootHash key value = ROutcome.ok b) := by
  constructor
  · intro h
    rw [MerkleTriePath.verify, if_neg (by tauto)]
  · intro h1 h2 hb
    rw [MerkleTriePath.verify, if_pos ⟨h1, h2⟩]
    by_cases hemp : p.path.isEmpty
    · rw [if_pos hemp]
      exact ⟨false, rfl⟩
    · rw [if_neg hemp]
      obtain ⟨d, hd⟩ := verifyLevels_isSome H _ (zip3_levels_bound p hb)
          (H key (some value) [])
      have hco : computedRootOpt H p key value = some d := hd
      rw [hco]
      exact ⟨d == rootHash, rfl⟩

/-- Witness for `merkle_verify_error_behaviour` at concrete paths: one
with mismatched lengths (panics) and one well-formed (returns `Ok`,
hence neither panics nor errors). -/
theorem merkle_verify_error_behaviour_witness :
    MerkleTriePath.verify (fun _ _ _ => 0) ⟨[], [], [0]⟩ 0 [] 0 =
        ROutcome.panicked ∧
      MerkleTriePath.verify (fun _ _ _ => 0) ⟨[[5]], [([1], some 2)], [0]⟩
          3 [] 7 ≠ ROutcome.panicked ∧
      MerkleTriePath.verify (fun _ _ _ => 0) ⟨[[5]], [([1], some 2)], [0]⟩
          3 [] 7 ≠ ROutcome.error := by
  refine ⟨(merkle_verify_error_behaviour (fun _ _ _ => 0) ⟨[], [], [0]⟩
      0 [] 0).1 (Or.inl (by decide)), ?_, ?_⟩ <;>
  · obtain ⟨b, hb⟩ := (merkle_verify_error_behaviour (fun _ _ _ => 0)
      ⟨[[5]], [([1], some 2)], [0]⟩ 3 [] 7).2 (by decide) (by decide) (by decide)
    rw [hb]
    simp

/-- **C8**: on a `MerkleTriePath` whose `path` vector is empty (and whose
`parents`/`traversal` vectors are empty too, as the data-model length
invariant and the leading `assert_eq!`s require), `verify` returns
`Ok(false)` for every root hash, key and value. -/
theorem merkle_verify_empty_path (H : List Nat → Option Nat → List Nat → Nat)
    (p : MerkleTriePath) (rootHash : Nat) (key : List Nat) (value : Nat)
    (hp : p.path = []) (ht : p.traversal = []) (hpar : p.parents = []) :
    p.verify H rootHash key value = ROutcome.ok false := by
  rw [MerkleTriePath.verify, if_pos (by rw [hp, ht, hpar]; exact ⟨rfl, rfl⟩),
    if_pos (by rw [hp]; rfl)]

/-- Witness for `merkle_verify_empty_path` at a concrete empty path. -/
theorem merkle_verify_empty_path_witness :
    MerkleTriePath.verify (fun k _ _ => k.length) ⟨[], [], []⟩ 5 [3] 4 =
      ROutcome.ok false :=
  merkle_verify_empty_path (fun k _ _ => k.length) ⟨[], [], []⟩ 5 [3] 4
    rfl rfl rfl

/-! ## Marlin proof structure (`snark/marlin/data_structures/proof.rs`)

Commitments, field elements and the opaque prover message / evaluation
proof are modelled as `Nat`; only their counts matter to
`Proof::new` and `Proof::batch_sizes`. -/

/-- `Commitments<E>`: per-instance witness commitments plus the fixed
polynomial commitments. -/
structure Commitments where
  witnessCommitments : List Nat
  maskPoly : Option Nat
  g1 : Nat
  h1 : Nat
  gACommitments : List Nat
  gBCommitments : List Nat
  gCCommitments : List Nat
  h2 : Nat
deriving Repr, DecidableEq

/-- `Evaluations<F>`: per-circuit `z_b` evaluation vectors plus the
remaining evaluation claims. -/
structure Evaluations where
  zbEvals : List (List Nat)
  g1Eval : Nat
  gAEvals : List Nat
  gBEvals : List Nat
  gCEvals : List Nat
deriving Repr, DecidableEq

/-- `Proof<E>`: declared batch sizes, commitments, evaluations, prover
message and evaluation proof. -/
structure MarlinProof where
  batchSizes : List Nat
  commitments : Commitments
  evaluations : Evaluations
  msg : Nat
  pcProof : Nat
deriving Repr, DecidableEq

/-- The `z_b_evals` loop of `Proof::new`: for each circuit's evaluation
vector, compare its length with `batch_sizes[i]` — returning
`Err(BatchSizeMismatch)` on inequality, and panicking (`[]`-indexing a
`Vec` out of bounds) when there are more evaluation vectors than
declared batch sizes. -/
def checkZbLens (batchSizes : List Nat) : List (List Nat) → Nat → ROutcome Unit
  | [], _ => ROutcome.ok ()
  | z :: rest, i =>
    match batchSizes[i]? with
    | none => ROutcome.panicked
    | some b =>
      if z.length ≠ b then ROutcome.error else checkZbLens batchSizes rest (i + 1)

/-- `Proof::new(batch_sizes_map, total_instances, commitments,
evaluations, msg, pc_proof)`: errors when the witness-commitment count
differs from `total_instances`, then checks each circuit's `z_b`
evaluation count against its declared batch size (the map's values in
order). -/
def proofNew (batchSizesMap : List Nat) (totalInstances : Nat)
    (commitments : Commitments) (evaluations : Evaluations)
    (msg pcProof : Nat) : ROutcome MarlinProof :=
  if commitments.witnessCommitments.length ≠ totalInstances then
    ROutcome.error
  else
    match checkZbLens batchSizesMap evaluations.zbEvals 0 with
    | ROutcome.panicked => ROutcome.panicked
    | ROutcome.error => ROutcome.error
    | ROutcome.ok _ =>
      ROutcome.ok ⟨batchSizesMap, commitments, evaluations, msg, pcProof⟩

/-- The loop of `Proof::batch_sizes`: walk `z_b_evals.zip(batch_sizes)`
accumulating the total instance count, erroring (`none`) on any
per-circuit count mismatch. -/
def bsLoop : List (List Nat × Nat) → Nat → Option Nat
  | [], total => some total
  | (z, b) :: rest, total =>
    if z.length ≠ b then none else bsLoop rest (total + b)

/-- `Proof::batch_sizes()`: errors when some circuit's `z_b` evaluation
count differs from its declared batch size, or when the
witness-commitment count differs from the accumulated total; otherwise
returns the declared batch sizes. -/
def MarlinProof.batchSizesFn (p : MarlinProof) : ROutcome (List Nat) :=
  match bsLoop (p.evaluations.zbEvals.zip p.batchSizes) 0 with
  | none => ROutcome.error
  | some total =>
    if p.commitments.witnessCommitments.length ≠ total then ROutcome.error
    else ROutcome.ok p.batchSizes

theorem zipPairs_getElem? (xs : List α) (ys : List β) (i : Nat) :
    (xs.zip ys)[i]? = xs[i]?.bind fun x => ys[i]?.map fun y => (x, y) := by
  induction xs generalizing ys i with
  | nil => cases ys <;> simp
  | cons x xs ih =>
    cases ys with
    | nil => simp
    | cons y ys =>
      cases i with
      | zero => simp
      | succ j => simpa using ih ys j

/-- A per-circuit count mismatch at an index covered by the declared
batch sizes makes the `Proof::new` loop return an error. -/
theorem checkZbLens_eq_error (bs : List Nat) (zb : List (List Nat))
    (k j : Nat) (hj : j < zb.length) (hk : k + j < bs.length)
    (hmis : (zb.getD j []).length ≠ bs.getD (k + j) 0) :
    checkZbLens bs zb k = ROutcome.error := by
  induction zb generalizing k j with
  | nil => simp at hj
  | cons z rest ih =>
    rw [checkZbLens,
      getElem?_eq_some_getD 0 (show k < bs.length by omega)]
    show (if z.length ≠ bs.getD k 0 then ROutcome.error
        else checkZbLens bs rest (k + 1)) = ROutcome.error
    by_cases hz : z.length ≠ bs.getD k 0
    · rw [if_pos hz]
    · rw [if_neg hz]
      cases j with
      | zero =>
        exfalso
        exact hmis (by simpa [List.getD] using not_not.mp hz)
      | succ j' =>
        apply ih (k + 1) j' (by simpa using hj) (by omega)
        have : k + 1 + j' = k + (j' + 1) := by omega
        rw [this]
        simpa [List.getD] using hmis

/-- A mismatching pair anywhere in the zipped list makes the
`batch_sizes` loop error. -/
theorem bsLoop_eq_none (l : List (List Nat × Nat))
    (hmem : ∃ pr ∈ l, pr.1.length ≠ pr.2) (t : Nat) : bsLoop l t = none := by
  induction l generalizing t with
  | nil => simp at hmem
  | cons hd tl ih =>
    obtain ⟨pr, hpr, hne⟩ := hmem
    obtain ⟨z, b⟩ := hd
    rw [bsLoop]
    rcases List.mem_cons.mp hpr with heq | hmem'
    · subst heq
      simp only at hne
      rw [if_pos hne]
    · by_cases hz : z.length ≠ b
      · rw [if_pos hz]
      · rw [if_neg hz]
        exact ih ⟨pr, hmem', hne⟩ _

/-- When every zipped pair matches, the `batch_sizes` loop returns the
accumulated sum of the zipped batch sizes. -/
theorem bsLoop_eq_some (l : List (List Nat × Nat))
    (hall : ∀ pr ∈ l, pr.1.length = pr.2) (t : Nat) :
    bsLoop l t = some (t + (l.map Prod.snd).sum) := by
  induction l generalizing t with
  | nil => simp [bsLoop]
  | cons hd tl ih =>
    obtain ⟨z, b⟩ := hd
    have hz : z.length = b := hall (z, b) (List.mem_cons_self _ _)
    rw [bsLoop, if_neg (by simpa using hz),
      ih (fun pr hpr => hall pr (List.mem_cons_of_mem _ hpr)) (t + b)]
    simp [Nat.add_assoc]

theorem map_snd_zip_of_length_eq (xs : List (List Nat)) (ys : List Nat)
    (h : xs.length = ys.length) : (xs.zip ys).map Prod.snd = ys := by
  induction xs generalizing ys with
  | nil => cases ys <;> simp_all
  | cons x xs ih =>
    cases ys with
    | nil => simp at h
    | cons y ys => simpa using ih ys (by simpa using h)

/-- **C9**: both `Proof::new` and `Proof::batch_sizes` surface declared
batch-size mismatches as `BatchSizeMismatch` errors rather than
coercing them, assuming the evaluation vectors cover the same circuits
as the declared batch sizes: `Proof::new` errors whenever the
witness-commitment count differs from `total_instances` or some
circuit's `z_b` evaluation count differs from its declared batch size,
and `Proof::batch_sizes` errors (rather than returning the sizes)
whenever some circuit's `z_b` evaluation count differs from its batch
size or the witness-commitment count differs from the total instance
count (the sum of the batch sizes). -/
theorem proof_batch_size_mismatch_errors (bsMap : List Nat)
    (totalInstances : Nat) (c : Commitments) (e : Evaluations)
    (msg pc : Nat) (p : MarlinProof)
    (h1 : e.zbEvals.length = bsMap.length)
    (h2 : p.evaluations.zbEvals.length = p.batchSizes.length) :
    ((c.witnessCommitments.length ≠ totalInstances ∨
      ∃ i, i < bsMap.length ∧ (e.zbEvals.getD i []).length ≠ bsMap.getD i 0) →
      proofNew bsMap totalInstances c e msg pc = ROutcome.error) ∧
    ((p.commitments.witnessCommitments.length ≠ p.batchSizes.sum ∨
      ∃ i, i < p.batchSizes.length ∧
        (p.evaluations.zbEvals.getD i []).length ≠ p.batchSizes.getD i 0) →
      p.batchSizesFn = ROutcome.error) := by
  constructor
  · intro h
    rw [proofNew]
    by_cases hw : c.witnessCommitments.length ≠ totalInstances
    · rw [if_pos hw]
    · rw [if_neg hw]
      rcases h with hw' | ⟨i, hilt, hmis⟩
      · exact absurd hw' hw
      · rw [checkZbLens_eq_error bsMap e.zbEvals 0 i (by omega)
          (by simpa using hilt) (by simpa using hmis)]
  · intro h
    rw [MarlinProof.batchSizesFn]
    by_cases hex : ∃ i, i < p.batchSizes.length ∧
        (p.evaluations.zbEvals.getD i []).length ≠ p.batchSizes.getD i 0
    · obtain ⟨i, hilt, hmis⟩ := hex
      have hmem : (p.evaluations.zbEvals.getD i [], p.batchSizes.getD i 0) ∈
          p.evaluations.zbEvals.zip p.batchSizes := by
        apply mem_of_getElem? (i := i)
        rw [zipPairs_getElem?, getElem?_eq_some_getD [] (by omega),
          getElem?_eq_some_getD 0 hilt]
        rfl
      rw [bsLoop_eq_none _ ⟨_, hmem, hmis⟩]
    · have hall : ∀ pr ∈ p.evaluations.zbEvals.zip p.batchSizes,
          pr.1.length = pr.2 := by
        intro pr hpr
        obtain ⟨i, hi⟩ := List.mem_iff_getElem?.mp hpr
        rw [zipPairs_getElem?] at hi
        cases hz : p.evaluations.zbEvals[i]? with
        | none => simp [hz] at hi
        | some z =>
          cases hbs : p.batchSizes[i]? with
          | none => simp [hz, hbs] at hi
          | some b =>
            obtain ⟨pz, pb⟩ := pr
            simp [hz, hbs] at hi
            obtain ⟨hg1, hg2⟩ := hi
            obtain ⟨hgz, _⟩ := getD_of_getElem? [] hz
            obtain ⟨hgb, hib⟩ := getD_of_getElem? 0 hbs
            show pz.length = pb
            subst hg1
            subst hg2
            by_contra hne
            exact hex ⟨i, hib, by rw [hgz, hgb]; exact hne⟩
      rw [bsLoop_eq_some _ hall 0,
        map_snd_zip_of_length_eq _ _ h2]
      show (if p.commitments.witnessCommitments.length ≠ 0 + p.batchSizes.sum
          then ROutcome.error else ROutcome.ok p.batchSizes) = ROutcome.error
      rcases h with hw | hex'
      · rw [if_pos (by omega)]
      · exact absurd hex' hex

/-- Witness for `proof_batch_size_mismatch_errors` at concrete data: a
construction whose witness-commitment count differs from the declared
total, and a proof value with a per-circuit `z_b` count mismatch. -/
theorem proof_batch_size_mismatch_errors_witness :
    proofNew [1] 5 ⟨[], none, 0, 0, [], [], [], 0⟩ ⟨[[7]], 0, [], [], []⟩ 0 0 =
        ROutcome.error ∧
      MarlinProof.batchSizesFn
        ⟨[1], ⟨[], none, 0, 0, [], [], [], 0⟩, ⟨[[]], 0, [], [], []⟩, 0, 0⟩ =
        ROutcome.error :=
  ⟨(proof_batch_size_mismatch_errors [1] 5 ⟨[], none, 0, 0, [], [], [], 0⟩
      ⟨[[7]], 0, [], [], []⟩ 0 0
      ⟨[1], ⟨[], none, 0, 0, [], [], [], 0⟩, ⟨[[]], 0, [], [], []⟩, 0, 0⟩
      (by decide) (by decide)).1 (Or.inl (by decide)),
    (proof_batch_size_mismatch_errors [1] 5 ⟨[], none, 0, 0, [], [], [], 0⟩
      ⟨[[7]], 0, [], [], []⟩ 0 0
      ⟨[1], ⟨[], none, 0, 0, [], [], [], 0⟩, ⟨[[]], 0, [], [], []⟩, 0, 0⟩
      (by decide) (by decide)).2 (Or.inr ⟨0, by decide, by decide⟩)⟩

/-! ## The inner circuit (`dpc/src/circuits/inner_circuit.rs`)

`InnerCircuit::generate_constraints` builds an R1CS constraint system
over the circuit's public variables (ledger digest, transaction id,
executable program id, encrypted-record ids) and private variables
(input records with witnesses and signatures, output records with
randomizers, and the transaction kernel).  Each `enforce_equal` is an
equality constraint and each `conditional_enforce_equal(a, b, cond)`
constrains `a = b` only when `cond` holds; every gadget sub-circuit
(CRH, PRF, commitment, encryption, signature) computes its primitive on
the allocated values.  `innerCircuitSatisfied` below is the resulting
satisfaction predicate: it holds exactly when the witness satisfies all
generated constraints.  A panic during constraint generation (e.g. the
`old_serial_numbers_gadgets[j]` index on an output without a matching
input) yields no constraint system at all, hence no acceptance; it is
folded into `false`.

The cryptographic gadgets, the byte serialisers of opaque scheme values
(`ToBytes`), and the byte-to-field-element encoding
(`ToConstraintField`) are external collaborators not under `src/`; they
are the fields of `Primitives`.  `Int64` gadget addition/subtraction is
likewise external and is modelled from the spec ("overflow must be a
rejected assignment, not silent modular reduction") as
overflow-rejecting exact signed 64-bit arithmetic (`i64Add`/`i64Sub`).
The `u64` → `i64` cast `record.value() as i64` *is* in the analysed
source and is modelled exactly (`castI64`, two's-complement
reinterpretation). -/

/-- `u64::to_bytes_le()`: eight little-endian bytes. -/
def u64Bytes (v : Nat) : List Nat :=
  (List.range 8).map fun k => v / 256 ^ k % 256

/-- `u16::to_le_bytes()`: two little-endian bytes. -/
def u16Bytes (v : Nat) : List Nat :=
  (List.range 2).map fun k => v / 256 ^ k % 256

/-- `Int64` gadget `to_bytes`: eight little-endian two's-complement
bytes. -/
def i64Bytes (x : Int) : List Nat :=
  u64Bytes (x % ((2 : Int) ^ 64)).toNat

/-- `Boolean::to_bytes`: a single byte. -/
def boolBytes (b : Bool) : List Nat := [if b then 1 else 0]

/-- The Rust cast `record.value() as i64`: two's-complement
reinterpretation of a `u64`, silently mapping values `≥ 2^63` to
negative numbers. -/
def castI64 (v : Nat) : Int :=
  if v % 2 ^ 64 < 2 ^ 63 then ((v % 2 ^ 64 : Nat) : Int)
  else ((v % 2 ^ 64 : Nat) : Int) - 2 ^ 64

/-- Modelled from the spec: the `Int64` gadget `add` (not under `src/`)
performs exact signed 64-bit addition, and an assignment whose sum
overflows is rejected (`none`), never reduced modulo `2^64`. -/
def i64Add (a b : Int) : Option Int :=
  if -(2 ^ 63) ≤ a + b ∧ a + b < 2 ^ 63 then some (a + b) else none

/-- Modelled from the spec: the `Int64` gadget `sub`, overflow-rejecting
exact signed 64-bit subtraction. -/
def i64Sub (a b : Int) : Option Int :=
  if -(2 ^ 63) ≤ a - b ∧ a - b < 2 ^ 63 then some (a - b) else none

/-- A record as the circuit reads it: owner (account encryption key),
dummy flag, `u64` value, payload bytes, program-id bytes, serial-number
nonce, commitment and commitment randomness. -/
structure Record where
  owner : Nat
  isDummy : Bool
  value : Nat
  payload : List Nat
  programId : List Nat
  serialNumberNonce : Nat
  commitment : Nat
  commitmentRandomness : Nat
deriving Repr, DecidableEq

instance : Inhabited Record := ⟨⟨0, false, 0, [], [], 0, 0, 0⟩⟩

/-- The external cryptographic collaborators of the inner circuit:
byte-to-field-element encoding, `ToBytes` serialisers of opaque scheme
values, the commitment scheme, serial-number PRF, compute-key
derivation from a signature, owner-key to signature-key conversion, the
Merkle membership gadget over the commitments tree, account encryption,
the encrypted-record CRH, the transaction-id CRH, signature
verification, and the two byte constants (`Payload::default()`,
`noop_program_id`). -/
structure Primitives where
  toFE : List Nat → List Nat
  ownerBytes : Nat → List Nat
  nonceInputBytes : Nat → List Nat
  snBytes : Nat → List Nat
  commBytes : Nat → List Nat
  randBytes : Nat → List Nat
  commit : List Nat → Nat → Nat
  prf : Nat → Nat → Nat
  skPrfOfSignature : Nat → Nat
  sigPkOfOwner : Nat → Nat
  merkleCheck : Nat → Nat → Nat → Bool
  encrypt : Nat → Nat → List Nat → Nat
  encCrh : Nat → Nat
  txCrh : List Nat → Nat
  sigVerify : Nat → List Nat → Nat → Bool
  emptyPayloadBytes : List Nat
  noopProgramId : List Nat

/-- The circuit's public and private variables: `InnerPublicVariables`
(ledger digest, transaction id, executable program id, encrypted-record
ids) and `InnerPrivateVariables` (input records with Merkle witnesses
and signatures, output records with encryption randomizers, and the
transaction kernel with the declared input/output counts of the circuit
type). -/
structure InnerWitness where
  ledgerDigest : Nat
  transactionId : Nat
  programId : List Nat
  encryptedRecordIds : List Nat
  inputRecords : List Record
  inputWitnesses : List Nat
  signatures : List Nat
  outputRecords : List Record
  encryptedRecordRandomizers : List Nat
  networkId : Nat
  serialNumbers : List Nat
  commitments : List Nat
  valueBalance : Int
  memo : List Nat
  numberOfInputs : Nat
  numberOfOutputs : Nat

/-- Zip four lists, truncating to the shortest — Rust's
`a.iter().zip(b).zip(d).zip(e)` flattened. -/
def zip4 : List α → List β → List γ → List δ → List (α × β × γ × δ)
  | a :: as_, b :: bs, g :: gs, d :: ds => (a, b, g, d) :: zip4 as_ bs gs ds
  | _, _, _, _ => []

/-- `enumerate` starting from `n`. -/
def enumFromN (n : Nat) : List α → List (Nat × α)
  | [] => []
  | x :: xs => (n, x) :: enumFromN (n + 1) xs

/-- The input loop's iterator: `(record, witness, signature,
kernel serial number)` per processed input. -/
def inputTuples (w : InnerWitness) : List (Record × Nat × Nat × Nat) :=
  zip4 w.inputRecords w.inputWitnesses w.signatures w.serialNumbers

/-- The output loop's iterator: `(record, kernel commitment, encryption
randomizer, public encrypted-record id)` per processed output. -/
def outputTuples (w : InnerWitness) : List (Record × Nat × Nat × Nat) :=
  zip4 w.outputRecords w.commitments w.encryptedRecordRandomizers
    w.encryptedRecordIds

/-- The candidate serial number of an input record:
`PRF(sk_prf(signature), serial_number_nonce)`. -/
def derivedSerialNumber (P : Primitives) (signature : Nat) (r : Record) : Nat :=
  P.prf (P.skPrfOfSignature signature) r.serialNumberNonce

/-- `old_serial_numbers_gadgets`: the candidate serial numbers of the
processed input records, in input order. -/
def oldSerialNumbers (P : Primitives) (w : InnerWitness) : List Nat :=
  (inputTuples w).map fun t => derivedSerialNumber P t.2.2.1 t.1

/-- The "noop safety checks": when the record is a dummy, its value,
payload and program id must encode (as field elements) like the zero
value, empty payload and noop program id. -/
def dummyChecks (P : Primitives) (r : Record) : Bool :=
  !r.isDummy ||
    (P.toFE (u64Bytes r.value) == P.toFE (u64Bytes 0) &&
     P.toFE r.payload == P.toFE P.emptyPayloadBytes &&
     P.toFE r.programId == P.toFE P.noopProgramId)

/-- The input-record commitment preimage: owner bytes, dummy byte,
value bytes, payload, program id, and the PRF-*input* serialisation of
the serial-number nonce. -/
def inputCommitmentInput (P : Primitives) (r : Record) : List Nat :=
  P.ownerBytes r.owner ++ boolBytes r.isDummy ++ u64Bytes r.value ++
    r.payload ++ r.programId ++ P.nonceInputBytes r.serialNumberNonce

/-- All constraints of `Process input record i`: conditional ledger
membership (skipped for dummies), serial-number derivation matching the
kernel's declared serial number, the noop safety checks, and the
commitment recomputation. -/
def inputCheck (P : Primitives) (ledgerDigest : Nat) (r : Record)
    (witness signature givenSN : Nat) : Bool :=
  (r.isDummy || P.merkleCheck ledgerDigest r.commitment witness) &&
  (derivedSerialNumber P signature r == givenSN) &&
  dummyChecks P r &&
  (P.commit (inputCommitmentInput P r) r.commitmentRandomness == r.commitment)

/-- The output-record commitment preimage (the nonce is a PRF *output*
here, serialised by `snBytes`). -/
def outputCommitmentInput (P : Primitives) (r : Record) : List Nat :=
  P.ownerBytes r.owner ++ boolBytes r.isDummy ++ u64Bytes r.value ++
    r.payload ++ r.programId ++ P.snBytes r.serialNumberNonce

/-- The record-encryption plaintext: value, payload, program id,
serial-number nonce and commitment randomness bytes. -/
def encryptionPlaintext (P : Primitives) (r : Record) : List Nat :=
  u64Bytes r.value ++ r.payload ++ r.programId ++
    P.snBytes r.serialNumberNonce ++ P.randBytes r.commitmentRandomness

/-- All constraints of `Process output record j`: the record commitment
equals the kernel's published commitment, the serial-number nonce
equals `old_serial_numbers_gadgets[j]` (indexing past the processed
inputs panics — folded into `false`), the noop safety checks, the
commitment recomputation, and the encrypted-record-id binding. -/
def outputCheck (P : Primitives) (oldSNs : List Nat) (j : Nat) (r : Record)
    (kernelCommitment randomizer encryptedRecordId : Nat) : Bool :=
  (r.commitment == kernelCommitment) &&
  (match oldSNs[j]? with
   | some sn => sn == r.serialNumberNonce
   | none => false) &&
  dummyChecks P r &&
  (P.commit (outputCommitmentInput P r) r.commitmentRandomness ==
    r.commitment) &&
  (P.encCrh (P.encrypt randomizer r.owner (encryptionPlaintext P r)) ==
    encryptedRecordId)

/-- The per-input program-id field elements, pushed in input order. -/
def inputProgramIdFEs (P : Primitives) (w : InnerWitness) : List (List Nat) :=
  (inputTuples w).map fun t => P.toFE t.1.programId

/-- The per-output program-id field elements, pushed in output order. -/
def outputProgramIdFEs (P : Primitives) (w : InnerWitness) : List (List Nat) :=
  (outputTuples w).map fun t => P.toFE t.1.programId

/-- The `Check that program commitment is well-formed` section:
`number_of_inputs <= NUM_INPUT_RECORDS as u8` (and the output
analogue), and for the first `NUM_INPUT_RECORDS` processed records, the
program id (as field elements) must equal the executable's id when
`i as u8 < number_of_inputs` and the noop id otherwise. -/
def programIdChecks (P : Primitives)
    (numInputRecords numOutputRecords : Nat) (w : InnerWitness) : Bool :=
  decide (w.numberOfInputs % 256 ≤ numInputRecords % 256) &&
  decide (w.numberOfOutputs % 256 ≤ numOutputRecords % 256) &&
  (enumFromN 0 ((inputProgramIdFEs P w).take numInputRecords)).all
    (fun p => if p.1 % 256 < w.numberOfInputs % 256
      then p.2 == P.toFE w.programId else p.2 == P.toFE P.noopProgramId) &&
  (enumFromN 0 ((outputProgramIdFEs P w).take numOutputRecords)).all
    (fun p => if p.1 % 256 < w.numberOfOutputs % 256
      then p.2 == P.toFE w.programId else p.2 == P.toFE P.noopProgramId)

/-- The running value balance: fold `i64Add` of every input's cast
value over `Int64::zero()`, then `i64Sub` of every output's cast value,
with overflow rejecting the assignment. -/
def balanceCandidate (w : InnerWitness) : Option Int :=
  (w.inputRecords.foldl
      (fun acc r => acc.bind fun a => i64Add a (castI64 r.value)) (some 0)).bind
    fun s => w.outputRecords.foldl
      (fun acc r => acc.bind fun a => i64Sub a (castI64 r.value)) (some s)

/-- `given_value_balance == candidate_value_balance`. -/
def balanceCheck (w : InnerWitness) : Bool :=
  balanceCandidate w == some w.valueBalance

/-- The transaction-kernel byte message (signature message and
transaction-id preimage): network id, candidate serial-number bytes in
input order, output-commitment bytes in output order, value-balance
bytes, memo. -/
def kernelMessage (P : Primitives) (w : InnerWitness) : List Nat :=
  u16Bytes (w.networkId % 2 ^ 16) ++
    ((oldSerialNumbers P w).map P.snBytes).flatten ++
    ((outputTuples w).map fun t => P.commBytes t.1.commitment).flatten ++
    i64Bytes w.valueBalance ++ w.memo

/-- `signature_public_keys`: the signature public key re-read from each
processed input record's owner encryption key. -/
def signaturePublicKeys (P : Primitives) (w : InnerWitness) : List Nat :=
  (inputTuples w).map fun t => P.sigPkOfOwner t.1.owner

/-- Satisfaction of the full constraint system generated by
`InnerCircuit::generate_constraints`: all per-input checks, all
per-output checks, the program-id consistency section, the
value-balance check, the transaction-id binding, and one signature
verification per `signatures.zip(signature_public_keys)` pair over the
kernel message. -/
def innerCircuitSatisfied (P : Primitives)
    (numInputRecords numOutputRecords : Nat) (w : InnerWitness) : Bool :=
  (inputTuples w).all
    (fun t => inputCheck P w.ledgerDigest t.1 t.2.1 t.2.2.1 t.2.2.2) &&
  (enumFromN 0 (outputTuples w)).all
    (fun p => outputCheck P (oldSerialNumbers P w) p.1 p.2.1 p.2.2.1
      p.2.2.2.1 p.2.2.2.2) &&
  programIdChecks P numInputRecords numOutputRecords w &&
  balanceCheck w &&
  (P.txCrh (kernelMessage P w) == w.transactionId) &&
  (w.signatures.zip (signaturePublicKeys P w)).all
    (fun pr => P.sigVerify pr.2 (kernelMessage P w) pr.1)

/-! ### Index bookkeeping for the circuit's iterators -/

theorem zip4_getElem? (xs : List α) (ys : List β) (zs : List γ) (ws : List δ)
    (i : Nat) :
    (zip4 xs ys zs ws)[i]? =
      xs[i]?.bind fun x => ys[i]?.bind fun y =>
        zs[i]?.bind fun z => ws[i]?.map fun v => (x, y, z, v) := by
  induction xs generalizing ys zs ws i with
  | nil => cases ys <;> cases zs <;> cases ws <;> simp [zip4]
  | cons x xs ih =>
    cases ys with
    | nil => simp [zip4]
    | cons y ys =>
      cases zs with
      | nil => simp [zip4]
      | cons z zs =>
        cases ws with
        | nil => simp [zip4]
        | cons v ws =>
          cases i with
          | zero => simp [zip4]
          | succ j => simpa [zip4] using ih ys zs ws j

theorem zip4_length (xs : List α) (ys : List β) (zs : List γ) (ws : List δ) :
    (zip4 xs ys zs ws).length =
      min xs.length (min ys.length (min zs.length ws.length)) := by
  induction xs generalizing ys zs ws with
  | nil => cases ys <;> cases zs <;> cases ws <;> simp [zip4]
  | cons x xs ih =>
    cases ys with
    | nil => simp [zip4]
    | cons y ys =>
      cases zs with
      | nil => simp [zip4]
      | cons z zs =>
        cases ws with
        | nil => simp [zip4]
        | cons v ws =>
          simp only [zip4, List.length_cons, ih]
          omega

theorem enumFromN_getElem? (n : Nat) (l : List α) (i : Nat) :
    (enumFromN n l)[i]? = l[i]?.map fun x => (n + i, x) := by
  induction l generalizing n i with
  | nil => simp [enumFromN]
  | cons x xs ih =>
    cases i with
    | zero => simp [enumFromN]
    | succ j =>
      simp only [enumFromN, List.getElem?_cons_succ, ih (n + 1) j]
      have : n + 1 + j = n + (j + 1) := by omega
      rw [this]

theorem getElem?_take_lt (l : List α) (n i : Nat) (h : i < n) :
    (l.take n)[i]? = l[i]? := by
  induction l generalizing n i with
  | nil => simp
  | cons x xs ih =>
    cases n with
    | zero => omega
    | succ m =>
      cases i with
      | zero => simp
      | succ j => simpa using ih m j (by omega)

theorem all_of_getElem? {l : List α} {f : α → Bool} {i : Nat} {x : α}
    (hall : l.all f = true) (hget : l[i]? = some x) : f x = true :=
  List.all_eq_true.mp hall x (mem_of_getElem? hget)

theorem inputTuples_getElem? (w : InnerWitness)
    (h1 : w.inputWitnesses.length = w.inputRecords.length)
    (h2 : w.signatures.length = w.inputRecords.length)
    (h3 : w.serialNumbers.length = w.inputRecords.length)
    (i : Nat) (hi : i < w.inputRecords.length) :
    (inputTuples w)[i]? = some (w.inputRecords.getD i default,
      w.inputWitnesses.getD i 0, w.signatures.getD i 0,
      w.serialNumbers.getD i 0) := by
  rw [inputTuples, zip4_getElem?, getElem?_eq_some_getD default hi,
    getElem?_eq_some_getD 0 (show i < w.inputWitnesses.length by omega),
    getElem?_eq_some_getD 0 (show i < w.signatures.length by omega),
    getElem?_eq_some_getD 0 (show i < w.serialNumbers.length by omega)]
  rfl

theorem outputTuples_getElem? (w : InnerWitness)
    (h1 : w.commitments.length = w.outputRecords.length)
    (h2 : w.encryptedRecordRandomizers.length = w.outputRecords.length)
    (h3 : w.encryptedRecordIds.length = w.outputRecords.length)
    (j : Nat) (hj : j < w.outputRecords.length) :
    (outputTuples w)[j]? = some (w.outputRecords.getD j default,
      w.commitments.getD j 0, w.encryptedRecordRandomizers.getD j 0,
      w.encryptedRecordIds.getD j 0) := by
  rw [outputTuples, zip4_getElem?, getElem?_eq_some_getD default hj,
    getElem?_eq_some_getD 0 (show j < w.commitments.length by omega),
    getElem?_eq_some_getD 0
      (show j < w.encryptedRecordRandomizers.length by omega),
    getElem?_eq_some_getD 0 (show j < w.encryptedRecordIds.length by omega)]
  rfl

theorem inputTuples_length (w : InnerWitness)
    (h1 : w.inputWitnesses.length = w.inputRecords.length)
    (h2 : w.signatures.length = w.inputRecords.length)
    (h3 : w.serialNumbers.length = w.inputRecords.length) :
    (inputTuples w).length = w.inputRecords.length := by
  rw [inputTuples, zip4_length]
  omega

theorem outputTuples_length (w : InnerWitness)
    (h1 : w.commitments.length = w.outputRecords.length)
    (h2 : w.encryptedRecordRandomizers.length = w.outputRecords.length)
    (h3 : w.encryptedRecordIds.length = w.outputRecords.length) :
    (outputTuples w).length = w.outputRecords.length := by
  rw [outputTuples, zip4_length]
  omega

/-! ### Concrete instantiations used by the witness theorems -/

/-- A degenerate but fully concrete set of primitives (every scheme
collapses to a constant or an identity), enough to exhibit satisfying
assignments of the constraint system. -/
def trivialPrimitives : Primitives where
  toFE := id
  ownerBytes := fun x => [x]
  nonceInputBytes := fun x => [x]
  snBytes := fun x => [x]
  commBytes := fun x => [x]
  randBytes := fun x => [x]
  commit := fun _ _ => 0
  prf := fun _ _ => 0
  skPrfOfSignature := fun _ => 0
  sigPkOfOwner := fun x => x
  merkleCheck := fun _ _ _ => true
  encrypt := fun _ _ _ => 0
  encCrh := fun _ => 0
  txCrh := fun _ => 0
  sigVerify := fun _ _ _ => true
  emptyPayloadBytes := []
  noopProgramId := []

/-- An all-zero non-dummy record. -/
def sampleRecord : Record := ⟨0, false, 0, [], [], 0, 0, 0⟩

/-- A satisfying assignment under `trivialPrimitives`: one input and one
output record, zero value balance, `number_of_inputs = 0`. -/
def sampleWitness : InnerWitness where
  ledgerDigest := 0
  transactionId := 0
  programId := []
  encryptedRecordIds := [0]
  inputRecords := [sampleRecord]
  inputWitnesses := [0]
  signatures := [0]
  outputRecords := [sampleRecord]
  encryptedRecordRandomizers := [0]
  networkId := 0
  serialNumbers := [0]
  commitments := [0]
  valueBalance := 0
  memo := []
  numberOfInputs := 0
  numberOfOutputs := 0

/-- `sampleWitness` indeed satisfies the whole constraint system, so the
satisfaction predicate is not vacuous. -/
theorem sampleWitness_satisfied :
    innerCircuitSatisfied trivialPrimitives 1 1 sampleWitness = true := by
  decide

/-- A witness exploiting the `u64 as i64` cast: one input record of
value `2^63`, no outputs, declared value balance `-2^63`. -/
def wrapWitness : InnerWitness where
  ledgerDigest := 0
  transactionId := 0
  programId := []
  encryptedRecordIds := []
  inputRecords := [⟨0, false, 2 ^ 63, [], [], 0, 0, 0⟩]
  inputWitnesses := [0]
  signatures := [0]
  outputRecords := []
  encryptedRecordRandomizers := []
  networkId := 0
  serialNumbers := [0]
  commitments := []
  valueBalance := -(2 ^ 63)
  memo := []
  numberOfInputs := 0
  numberOfOutputs := 0

/-- **C2 (counterexample)**: the constraint system is satisfied by an
assignment whose declared value balance (`-2^63`) differs from the
exact sum of input record values minus output record values (`2^63`):
the `record.value() as i64` cast silently wraps the value `2^63`
rather than rejecting the assignment. -/
theorem value_balance_cast_wraps_cex :
    innerCircuitSatisfied trivialPrimitives 1 1 wrapWitness = true ∧
      wrapWitness.valueBalance ≠
        ((wrapWitness.inputRecords.map fun r => (r.value : Int)).sum -
          (wrapWitness.outputRecords.map fun r => (r.value : Int)).sum) := by
  constructor
  · decide
  · decide

/-- **C2 (amended)**: the predicate accepts only if the declared value
balance equals the exact signed 64-bit sum of the *cast* input record
values minus the cast output record values, where each `u64` value is
first reinterpreted as `i64` (two's complement, so values `≥ 2^63`
silently wrap to negative); overflow of the running 64-bit sum rejects
the assignment (`balanceCandidate` returns `none`, which can never
equal `some`). -/
theorem value_balance_conservation (P : Primitives)
    (numInputRecords numOutputRecords : Nat) (w : InnerWitness)
    (h : innerCircuitSatisfied P numInputRecords numOutputRecords w = true) :
    balanceCandidate w = some w.valueBalance := by
  simp only [innerCircuitSatisfied, Bool.and_eq_true] at h
  obtain ⟨⟨⟨⟨⟨hin, hout⟩, hpid⟩, hbal⟩, htx⟩, hsig⟩ := h
  rw [balanceCheck] at hbal
  exact beq_iff_eq.mp hbal

/-- Witness for `value_balance_conservation` at the satisfying all-zero
assignment. -/
theorem value_balance_conservation_witness :
    balanceCandidate sampleWitness = some sampleWitness.valueBalance :=
  value_balance_conservation trivialPrimitives 1 1 sampleWitness (by decide)

/-- In a satisfying assignment, the candidate serial numbers coincide
with the kernel's declared serial numbers, index by index. -/
theorem oldSerialNumbers_eq (P : Primitives) (w : InnerWitness)
    (h1 : w.inputWitnesses.length = w.inputRecords.length)
    (h2 : w.signatures.length = w.inputRecords.length)
    (h3 : w.serialNumbers.length = w.inputRecords.length)
    (hin : (inputTuples w).all
      (fun t => inputCheck P w.ledgerDigest t.1 t.2.1 t.2.2.1 t.2.2.2) = true) :
    oldSerialNumbers P w = w.serialNumbers := by
  apply List.ext_getElem?
  intro i
  rw [oldSerialNumbers, List.getElem?_map]
  by_cases hi : i < w.inputRecords.length
  · have htup := inputTuples_getElem? w h1 h2 h3 i hi
    have hc := all_of_getElem? hin htup
    simp only [inputCheck, Bool.and_eq_true] at hc
    obtain ⟨⟨⟨hmem, hsn⟩, hdum⟩, hcom⟩ := hc
    rw [beq_iff_eq] at hsn
    rw [htup, getElem?_eq_some_getD 0 (show i < w.serialNumbers.length by omega)]
    simp only [Option.map_some']
    exact congrArg some hsn
  · rw [List.getElem?_eq_none
        (show (inputTuples w).length ≤ i by
          rw [inputTuples_length w h1 h2 h3]; omega),
      List.getElem?_eq_none (show w.serialNumbers.length ≤ i by omega)]
    rfl

/-- In a satisfying assignment, each output record's commitment equals
the kernel's published commitment at the same index, so the
commitment-byte lists coincide. -/
theorem outputCommitments_eq (P : Primitives) (w : InnerWitness)
    (h4 : w.commitments.length = w.outputRecords.length)
    (h5 : w.encryptedRecordRandomizers.length = w.outputRecords.length)
    (h6 : w.encryptedRecordIds.length = w.outputRecords.length)
    (hout : (enumFromN 0 (outputTuples w)).all
      (fun p => outputCheck P (oldSerialNumbers P w) p.1 p.2.1 p.2.2.1
        p.2.2.2.1 p.2.2.2.2) = true) :
    ((outputTuples w).map fun t => P.commBytes t.1.commitment) =
      w.commitments.map P.commBytes := by
  apply List.ext_getElem?
  intro j
  rw [List.getElem?_map, List.getElem?_map]
  by_cases hj : j < w.outputRecords.length
  · have htup := outputTuples_getElem? w h4 h5 h6 j hj
    have henum : (enumFromN 0 (outputTuples w))[j]? =
        some (0 + j, (w.outputRecords.getD j default, w.commitments.getD j 0,
          w.encryptedRecordRandomizers.getD j 0,
          w.encryptedRecordIds.getD j 0)) := by
      rw [enumFromN_getElem?, htup]
      rfl
    have hc := all_of_getElem? hout henum
    simp only [outputCheck, Bool.and_eq_true, Nat.zero_add] at hc
    obtain ⟨⟨⟨⟨hcomm, hmatch⟩, hdum⟩, hcmt⟩, henc⟩ := hc
    rw [beq_iff_eq] at hcomm
    rw [htup, getElem?_eq_some_getD 0 (show j < w.commitments.length by omega)]
    simp only [Option.map_some']
    exact congrArg some (congrArg P.commBytes hcomm)
  · rw [List.getElem?_eq_none
        (show (outputTuples w).length ≤ j by
          rw [outputTuples_length w h4 h5 h6]; omega),
      List.getElem?_eq_none (show w.commitments.length ≤ j by omega)]
    rfl

/-- **C3**: in a satisfying assignment the kernel byte message — which is
also, verbatim, the signature-verification message used by every
signature check — equals `network_id || declared serial numbers ||
published output commitments || value_balance bytes || memo`, and the
publicly declared transaction id equals the transaction-id CRH of that
byte sequence. -/
theorem transaction_id_binding (P : Primitives)
    (numInputRecords numOutputRecords : Nat) (w : InnerWitness)
    (h1 : w.inputWitnesses.length = w.inputRecords.length)
    (h2 : w.signatures.length = w.inputRecords.length)
    (h3 : w.serialNumbers.length = w.inputRecords.length)
    (h4 : w.commitments.length = w.outputRecords.length)
    (h5 : w.encryptedRecordRandomizers.length = w.outputRecords.length)
    (h6 : w.encryptedRecordIds.length = w.outputRecords.length)
    (h : innerCircuitSatisfied P numInputRecords numOutputRecords w = true) :
    kernelMessage P w =
      u16Bytes (w.networkId % 2 ^ 16) ++
        (w.serialNumbers.map P.snBytes).flatten ++
        (w.commitments.map P.commBytes).flatten ++
        i64Bytes w.valueBalance ++ w.memo ∧
    P.txCrh (kernelMessage P w) = w.transactionId := by
  simp only [innerCircuitSatisfied, Bool.and_eq_true] at h
  obtain ⟨⟨⟨⟨⟨hin, hout⟩, hpid⟩, hbal⟩, htx⟩, hsig⟩ := h
  constructor
  · rw [kernelMessage, oldSerialNumbers_eq P w h1 h2 h3 hin,
      outputCommitments_eq P w h4 h5 h6 hout]
  · exact beq_iff_eq.mp htx

/-- Witness for `transaction_id_binding` at the satisfying all-zero
assignment. -/
theorem transaction_id_binding_witness :
    kernelMessage trivialPrimitives sampleWitness =
      u16Bytes (sampleWitness.networkId % 2 ^ 16) ++
        (sampleWitness.serialNumbers.map trivialPrimitives.snBytes).flatten ++
        (sampleWitness.commitments.map trivialPrimitives.commBytes).flatten ++
        i64Bytes sampleWitness.valueBalance ++ sampleWitness.memo ∧
    trivialPrimitives.txCrh (kernelMessage trivialPrimitives sampleWitness) =
      sampleWitness.transactionId :=
  transaction_id_binding trivialPrimitives 1 1 sampleWitness
    rfl rfl rfl rfl rfl rfl (by decide)

/-- **C4**: in a satisfying assignment, the serial-number nonce of every
output record at index `j` equals the serial number derived via the PRF
(from the `j`-th signature's spend key and the `j`-th input record's
nonce) for the input record at the *same* index `j` — the constraint
`old_serial_numbers_gadgets[j] = given_serial_number_nonce` admits no
other pairing. -/
theorem output_nonce_pairing (P : Primitives)
    (numInputRecords numOutputRecords : Nat) (w : InnerWitness)
    (h1 : w.inputWitnesses.length = w.inputRecords.length)
    (h2 : w.signatures.length = w.inputRecords.length)
    (h3 : w.serialNumbers.length = w.inputRecords.length)
    (h4 : w.commitments.length = w.outputRecords.length)
    (h5 : w.encryptedRecordRandomizers.length = w.outputRecords.length)
    (h6 : w.encryptedRecordIds.length = w.outputRecords.length)
    (h : innerCircuitSatisfied P numInputRecords numOutputRecords w = true)
    (j : Nat) (hj : j < w.outputRecords.length) :
    (w.outputRecords.getD j default).serialNumberNonce =
      derivedSerialNumber P (w.signatures.getD j 0)
        (w.inputRecords.getD j default) := by
  simp only [innerCircuitSatisfied, Bool.and_eq_true] at h
  obtain ⟨⟨⟨⟨⟨hin, hout⟩, hpid⟩, hbal⟩, htx⟩, hsig⟩ := h
  have htup := outputTuples_getElem? w h4 h5 h6 j hj
  have henum : (enumFromN 0 (outputTuples w))[j]? =
      some (0 + j, (w.outputRecords.getD j default, w.commitments.getD j 0,
        w.encryptedRecordRandomizers.getD j 0,
        w.encryptedRecordIds.getD j 0)) := by
    rw [enumFromN_getElem?, htup]
    rfl
  have hc := all_of_getElem? hout henum
  simp only [outputCheck, Bool.and_eq_true, Nat.zero_add] at hc
  obtain ⟨⟨⟨⟨hcomm, hmatch⟩, hdum⟩, hcmt⟩, henc⟩ := hc
  cases ho : (oldSerialNumbers P w)[j]? with
  | none => rw [ho] at hmatch; simp at hmatch
  | some sn =>
    rw [ho] at hmatch
    rw [beq_iff_eq] at hmatch
    have hjin : j < w.inputRecords.length := by
      have hlt := (getD_of_getElem? 0 ho).2
      rw [oldSerialNumbers, List.length_map,
        inputTuples_length w h1 h2 h3] at hlt
      exact hlt
    have ho2 : (oldSerialNumbers P w)[j]? =
        some (derivedSerialNumber P (w.signatures.getD j 0)
          (w.inputRecords.getD j default)) := by
      rw [oldSerialNumbers, List.getElem?_map,
        inputTuples_getElem? w h1 h2 h3 j hjin]
      rfl
    rw [ho] at ho2
    injection ho2 with ho3
    rw [← hmatch, ho3]

/-- Witness for `output_nonce_pairing` at the satisfying all-zero
assignment, output index `0`. -/
theorem output_nonce_pairing_witness :
    (sampleWitness.outputRecords.getD 0 default).serialNumberNonce =
      derivedSerialNumber trivialPrimitives (sampleWitness.signatures.getD 0 0)
        (sampleWitness.inputRecords.getD 0 default) :=
  output_nonce_pairing trivialPrimitives 1 1 sampleWitness
    rfl rfl rfl rfl rfl rfl (by decide) 0 (by decide)

/-- **C5**: in a satisfying assignment, every input record at index
`i < number_of_inputs` carries the declared executable program id (as
field elements) and every input record at index `i ≥ number_of_inputs`
carries the noop program id; the symmetric rule holds for output
records against `number_of_outputs`.  (`number_of_inputs`/`outputs` are
`u8` values and the record capacities fit in a byte, so the circuit's
`u8` comparisons coincide with the numeric ones.) -/
theorem program_id_consistency (P : Primitives)
    (numInputRecords numOutputRecords : Nat) (w : InnerWitness)
    (h1 : w.inputWitnesses.length = w.inputRecords.length)
    (h2 : w.signatures.length = w.inputRecords.length)
    (h3 : w.serialNumbers.length = w.inputRecords.length)
    (h4 : w.commitments.length = w.outputRecords.length)
    (h5 : w.encryptedRecordRandomizers.length = w.outputRecords.length)
    (h6 : w.encryptedRecordIds.length = w.outputRecords.length)
    (hcapIn : w.inputRecords.length ≤ numInputRecords)
    (hcapOut : w.outputRecords.length ≤ numOutputRecords)
    (hnumIn : numInputRecords ≤ 256) (hnumOut : numOutputRecords ≤ 256)
    (hbIn : w.numberOfInputs < 256) (hbOut : w.numberOfOutputs < 256)
    (h : innerCircuitSatisfied P numInputRecords numOutputRecords w = true) :
    (∀ i, i < w.inputRecords.length →
      (i < w.numberOfInputs →
        P.toFE (w.inputRecords.getD i default).programId =
          P.toFE w.programId) ∧
      (w.numberOfInputs ≤ i →
        P.toFE (w.inputRecords.getD i default).programId =
          P.toFE P.noopProgramId)) ∧
    (∀ j, j < w.outputRecords.length →
      (j < w.numberOfOutputs →
        P.toFE (w.outputRecords.getD j default).programId =
          P.toFE w.programId) ∧
      (w.numberOfOutputs ≤ j →
        P.toFE (w.outputRecords.getD j default).programId =
          P.toFE P.noopProgramId)) := by
  simp only [innerCircuitSatisfied, Bool.and_eq_true] at h
  obtain ⟨⟨⟨⟨⟨hin, hout⟩, hpid⟩, hbal⟩, htx⟩, hsig⟩ := h
  simp only [programIdChecks, Bool.and_eq_true] at hpid
  obtain ⟨⟨⟨hcap1, hcap2⟩, hinAll⟩, houtAll⟩ := hpid
  constructor
  · intro i hi
    have htup := inputTuples_getElem? w h1 h2 h3 i hi
    have henum : (enumFromN 0 ((inputProgramIdFEs P w).take numInputRecords))[i]? =
        some (0 + i, P.toFE (w.inputRecords.getD i default).programId) := by
      rw [enumFromN_getElem?, getElem?_take_lt _ _ _ (show i < numInputRecords by omega),
        inputProgramIdFEs, List.getElem?_map, htup]
      rfl
    have hc := all_of_getElem? hinAll henum
    simp only [Nat.zero_add] at hc
    rw [Nat.mod_eq_of_lt (show i < 256 by omega), Nat.mod_eq_of_lt hbIn] at hc
    constructor
    · intro hlt
      rw [if_pos hlt] at hc
      exact beq_iff_eq.mp hc
    · intro hge
      rw [if_neg (by omega)] at hc
      exact beq_iff_eq.mp hc
  · intro j hj
    have htup := outputTuples_getElem? w h4 h5 h6 j hj
    have henum : (enumFromN 0 ((outputProgramIdFEs P w).take numOutputRecords))[j]? =
        some (0 + j, P.toFE (w.outputRecords.getD j default).programId) := by
      rw [enumFromN_getElem?, getElem?_take_lt _ _ _ (show j < numOutputRecords by omega),
        outputProgramIdFEs, List.getElem?_map, htup]
      rfl
    have hc := all_of_getElem? houtAll henum
    simp only [Nat.zero_add] at hc
    rw [Nat.mod_eq_of_lt (show j < 256 by omega), Nat.mod_eq_of_lt hbOut] at hc
    constructor
    · intro hlt
      rw [if_pos hlt] at hc
      exact beq_iff_eq.mp hc
    · intro hge
      rw [if_neg (by omega)] at hc
      exact beq_iff_eq.mp hc

/-- Witness for `program_id_consistency` at the satisfying all-zero
assignment (`number_of_inputs = number_of_outputs = 0`, so index `0` of
each side must carry the noop id). -/
theorem program_id_consistency_witness :
    trivialPrimitives.toFE
        (sampleWitness.inputRecords.getD 0 default).programId =
      trivialPrimitives.toFE trivialPrimitives.noopProgramId ∧
    trivialPrimitives.toFE
        (sampleWitness.outputRecords.getD 0 default).programId =
      trivialPrimitives.toFE trivialPrimitives.noopProgramId :=
  ⟨((program_id_consistency trivialPrimitives 1 1 sampleWitness
      rfl rfl rfl rfl rfl rfl (by decide) (by decide) (by decide) (by decide)
      (by decide) (by decide) (by decide)).1 0 (by decide)).2 (by decide),
    ((program_id_consistency trivialPrimitives 1 1 sampleWitness
      rfl rfl rfl rfl rfl rfl (by decide) (by decide) (by decide) (by decide)
      (by decide) (by decide) (by decide)).2 0 (by decide)).2 (by decide)⟩

/-- **C10**: signature verification is applied to every processed input
record unconditionally — dummies included: in a satisfying assignment,
for every input index `i` the `i`-th declared signature verifies over
the transaction-kernel message under the signature public key derived
from the `i`-th input record's owner.  Contrapositively, a dummy input
with a non-verifying signature makes the whole constraint system
unsatisfiable. -/
theorem signature_validity_unconditional (P : Primitives)
    (numInputRecords numOutputRecords : Nat) (w : InnerWitness)
    (h1 : w.inputWitnesses.length = w.inputRecords.length)
    (h2 : w.signatures.length = w.inputRecords.length)
    (h3 : w.serialNumbers.length = w.inputRecords.length)
    (h : innerCircuitSatisfied P numInputRecords numOutputRecords w = true)
    (i : Nat) (hi : i < w.inputRecords.length) :
    P.sigVerify (P.sigPkOfOwner (w.inputRecords.getD i default).owner)
      (kernelMessage P w) (w.signatures.getD i 0) = true := by
  simp only [innerCircuitSatisfied, Bool.and_eq_true] at h
  obtain ⟨⟨⟨⟨⟨hin, hout⟩, hpid⟩, hbal⟩, htx⟩, hsig⟩ := h
  have hzip : (w.signatures.zip (signaturePublicKeys P w))[i]? =
      some (w.signatures.getD i 0,
        P.sigPkOfOwner (w.inputRecords.getD i default).owner) := by
    rw [zipPairs_getElem?, getElem?_eq_some_getD 0
        (show i < w.signatures.length by omega),
      signaturePublicKeys, List.getElem?_map,
      inputTuples_getElem? w h1 h2 h3 i hi]
    rfl
  have hc := all_of_getElem? hsig hzip
  simpa using hc

/-- Witness for `signature_validity_unconditional` at the satisfying
all-zero assignment, input index `0`. -/
theorem signature_validity_unconditional_witness :
    trivialPrimitives.sigVerify
      (trivialPrimitives.sigPkOfOwner
        (sampleWitness.inputRecords.getD 0 default).owner)
      (kernelMessage trivialPrimitives sampleWitness)
      (sampleWitness.signatures.getD 0 0) = true :=
  signature_validity_unconditional trivialPrimitives 1 1 sampleWitness
    rfl rfl rfl (by decide) 0 (by decide)
